import Mathlib

/-!
Verification development for the core of `node-async-locks`: an in-process
asynchronous mutual-exclusion lock (`AsyncLock`) and a signal/reset event
(`ResetEvent`) for a single-threaded, cooperatively scheduled runtime.

The repository ships only the public TypeScript declaration file and the
README for these primitives; the JavaScript implementation files
(`lib/async-lock.js`, `lib/reset-event.js`) are not part of the available
sources.  Every operational definition below is therefore modelled from the
specification (and from the behavior documented in the declaration file and
README), as indicated in each doc comment.

Callbacks are opaque user functions; the embedding tracks them by the unique
id of the token that carries them.  "Executing a callback" is represented by
emitting the token's id into an execution trace, together with the timing
(synchronous or deferred to the next event-loop turn) prescribed by the
primitive's execution strategy.
-/

namespace AsyncLocks

/-- Modelled from the spec: the overflow strategy
(`OverflowStrategy = "this" | "first" | "last"`), the eviction rule applied
when a bounded pending queue would exceed capacity.  The JavaScript string
`"this"` is rendered as the constructor `this'`. -/
inductive OverflowStrategy where
  | this'
  | first
  | last
deriving DecidableEq, Repr

/-- Modelled from the spec: a token, "one admission request's identity,
cancellation flag, and callback".  The user callback and the timing fields
(`start`, `elapsed`) are not represented; the callback is identified by the
token's unique `id`, which the core allocates from a counter. -/
structure LockToken where
  id : Nat
  isCanceled : Bool
deriving DecidableEq, Repr

/-- Modelled from the spec: the options shape shared by both primitives
(`OptionsBase`).  `maxQueueSize = none` renders the JavaScript default
`Infinity` (unbounded pending queue). -/
structure Options where
  maxQueueSize : Option Nat
  overflowStrategy : OverflowStrategy
deriving DecidableEq, Repr

/-- Modelled from the spec: the reset-event options (`ResetEventOptions`),
adding `autoResetCount`; `none` renders the default `Infinity`. -/
structure ResetEventOptions where
  maxQueueSize : Option Nat
  overflowStrategy : OverflowStrategy
  autoResetCount : Option Nat
deriving DecidableEq, Repr

/-- Modelled from the spec: the base options contained in reset-event
options. -/
def ResetEventOptions.toOptions (o : ResetEventOptions) : Options :=
  ⟨o.maxQueueSize, o.overflowStrategy⟩

/-- Modelled from the spec: `cancel()` idempotently sets `isCanceled = true`
on a token. -/
def LockToken.cancel (t : LockToken) : LockToken :=
  { t with isCanceled := true }

/-- Modelled from the spec: `createToken(callback)` allocates a fresh token
carrying the callback, with a unique id drawn from the instance counter and
`isCanceled = false`. -/
def createToken (nextId : Nat) : LockToken :=
  ⟨nextId, false⟩

/-- Modelled from the spec: the Queue Policy (`reduceQueue`), the overflow
resolution invoked on every admission of a new pending token.  Given the
pending queue `Q` (oldest first), the incoming token `D` and the options, it
returns the resulting pending queue together with the list of evicted
(canceled) tokens:
- no finite `maxQueueSize`, or `|Q| < maxQueueSize`: append `D`, evict nothing;
- `this`: `D` itself is marked canceled and never inserted, `Q` unchanged;
- `first`: `Q[0]` is marked canceled and removed, `D` appended at the end;
- `last`: the last element of `Q` is marked canceled and removed, `D`
  appended in its place. -/
def reduceQueue (Q : List LockToken) (D : LockToken) (opts : Options) :
    List LockToken × List LockToken :=
  match opts.maxQueueSize with
  | none => (Q ++ [D], [])
  | some m =>
    if m ≤ Q.length then
      match opts.overflowStrategy with
      | .this' => (Q, [D.cancel])
      | .first =>
        match Q with
        | [] => ([D], [])
        | q0 :: rest => (rest ++ [D], [q0.cancel])
      | .last =>
        match Q.getLast? with
        | none => ([D], [])
        | some qn => (Q.dropLast ++ [D], [qn.cancel])
    else (Q ++ [D], [])

/-- Modelled from the spec: the two execution timings offered by the
pluggable execution strategy — synchronous (the callback runs within the
call that admitted it, before that call returns) or deferred to the next
turn of the event loop (the callback runs only after the admitting call has
returned). -/
inductive Timing where
  | immediate
  | nextTick
deriving DecidableEq, Repr

/-- Modelled from the spec: one scheduled invocation of an admitted token's
callback, recording the timing prescribed by the execution strategy and the
id of the token whose callback is invoked. -/
structure Invocation where
  timing : Timing
  tokenId : Nat
deriving DecidableEq, Repr

/-- Modelled from the spec: the usage error raised by `AsyncLock.leave` when
called with a token that is not the current holder ("The token must be the
token that acquired the lock otherwise an exception is thrown"). -/
inductive LockError where
  | notCurrentOwner
deriving DecidableEq, Repr

namespace AsyncLock

/-- Modelled from the spec: the lock's default `executeCallback` execution
strategy — "The default implementation will execute the callback
asynchronously after successful acquiring of the lock", i.e. deferred to the
next turn of the event loop, never synchronously in the caller's stack. -/
def executeCallback (t : LockToken) : Invocation :=
  ⟨Timing.nextTick, t.id⟩

/-- Modelled from the spec: the Lock Core state — `currentToken` (the single
token holding the lock, or none), the FIFO `pendingQueue`, the id counter
backing `createToken`, and the instance options. -/
structure State where
  current : Option LockToken
  queue : List LockToken
  nextId : Nat
  opts : Options
deriving DecidableEq, Repr

/-- Modelled from the spec: `isLocked()` returns `true` exactly when the
lock is currently acquired (`currentToken` is non-none). -/
def State.isLocked (s : State) : Bool :=
  s.current.isSome

/-- Modelled from the spec: `queueSize()` returns the number of pending
callbacks; the executing callback is not counted. -/
def State.queueSize (s : State) : Nat :=
  s.queue.length

/-- Result of one `enter` call: the new lock state, the token created for
the caller, the tokens evicted (and canceled) by the Queue Policy, and the
callback invocations issued by the call. -/
structure EnterResult where
  state : State
  token : LockToken
  evicted : List LockToken
  invocations : List Invocation
deriving DecidableEq, Repr

/-- Modelled from the spec: `enter(callback, timeout?)`.  A fresh token is
created.  If the lock is `FREE` it becomes `HELD` with the new token as
`currentToken` and the callback is executed via the execution strategy
(deferred).  If the lock is `HELD` the token is admitted to the pending
queue subject to the Queue Policy.  An optional timeout is modelled by a
separately scheduled timer-fire event (see `LockOp.timerFire`). -/
def State.enter (s : State) : EnterResult :=
  let t := createToken s.nextId
  match s.current with
  | none =>
    ⟨{ s with current := some t, nextId := s.nextId + 1 }, t, [],
      [executeCallback t]⟩
  | some _ =>
    let r := reduceQueue s.queue t s.opts
    ⟨{ s with queue := r.1, nextId := s.nextId + 1 }, t, r.2, []⟩

/-- Result of one `leave` call: the new lock state, the usage error (if
any), the queued tokens canceled by `abortPending`, and the callback
invocations issued by the call. -/
structure LeaveResult where
  state : State
  error : Option LockError
  canceled : List LockToken
  invocations : List Invocation
deriving DecidableEq, Repr

/-- Modelled from the spec: `leave(token, abortPending?)`.  If `token` is
not the current holder a usage error is raised synchronously and the state
is left unchanged.  Otherwise the lock is released; with `abortPending`
every queued token is canceled and the queue emptied (none execute); without
it the head of the queue (if any) is promoted to `currentToken` and its
callback executed via the (deferred) execution strategy. -/
def State.leave (s : State) (t : LockToken) (abortPending : Bool) :
    LeaveResult :=
  match s.current with
  | none => ⟨s, some LockError.notCurrentOwner, [], []⟩
  | some c =>
    if c.id = t.id then
      if abortPending then
        ⟨{ s with current := none, queue := [] }, none,
          s.queue.map LockToken.cancel, []⟩
      else
        match s.queue with
        | [] => ⟨{ s with current := none }, none, [], []⟩
        | h :: rest =>
          ⟨{ s with current := some h, queue := rest }, none, [],
            [executeCallback h]⟩
    else ⟨s, some LockError.notCurrentOwner, [], []⟩

end AsyncLock

namespace ResetEvent

/-- Modelled from the spec: the reset event's default `executeCallback`
execution strategy — "The default implementation will execute the callback
synchronously", i.e. the callback runs within the admitting call, before it
returns. -/
def executeCallback (t : LockToken) : Invocation :=
  ⟨Timing.immediate, t.id⟩

/-- Modelled from the spec: the default reset-event options
(`ResetEvent.defaultOptions`): unbounded queue, strategy `this`, unbounded
auto-reset count. -/
def defaultOptions : ResetEventOptions :=
  ⟨none, OverflowStrategy.this', none⟩

/-- Result of the FIFO drain performed by `set()`: the admitted tokens in
admission order, the tokens left queued, the leftover auto-reset budget, and
the signaled state when the drain stops. -/
structure DrainResult where
  admitted : List LockToken
  queue : List LockToken
  budget : Option Nat
  signaled : Bool
deriving DecidableEq, Repr

/-- Modelled from the spec: the drain loop of `set()`.  The pending queue is
drained in FIFO order with the given auto-reset budget (`none` renders the
unbounded default `Infinity`): canceled tokens are dropped without being
executed and without counting against the budget; each non-canceled token is
admitted, decrementing the budget.  If the finite budget reaches zero the
remaining tokens stay queued and the event is forced back to
`NON_SIGNALED`; otherwise the event stays `SIGNALED`. -/
def setDrain : Option Nat → List LockToken → DrainResult
  | some 0, q => ⟨[], q, some 0, false⟩
  | none, [] => ⟨[], [], none, true⟩
  | some (b + 1), [] => ⟨[], [], some (b + 1), true⟩
  | none, t :: rest =>
    let d := setDrain none rest
    if t.isCanceled then d else { d with admitted := t :: d.admitted }
  | some (b + 1), t :: rest =>
    if t.isCanceled then setDrain (some (b + 1)) rest
    else
      let d := setDrain (some b) rest
      { d with admitted := t :: d.admitted }

/-- Modelled from the spec: the Reset-Event Core state — the
signaled/non-signaled boolean, the FIFO `pendingQueue`, the
`remainingAutoReset` budget (`none` = unbounded), the id counter backing
`createToken`, and the instance options. -/
structure State where
  signaled : Bool
  remaining : Option Nat
  queue : List LockToken
  nextId : Nat
  opts : ResetEventOptions
deriving DecidableEq, Repr

/-- Modelled from the spec: the constructor
`new ResetEvent(isSignaled?, options?)` — the optional first argument gives
the initial signaled state; omitted (`none`) it defaults to non-signaled.
The pending queue starts empty and the auto-reset budget starts at
`autoResetCount`. -/
def create (isSignaled : Option Bool) (opts : ResetEventOptions) : State :=
  ⟨isSignaled.getD false, opts.autoResetCount, [], 0, opts⟩

/-- Modelled from the spec: `isSignaled()` reads the signaled state. -/
def State.isSignaled (s : State) : Bool :=
  s.signaled

/-- Modelled from the spec: `queueSize()` returns the number of pending
callbacks on the reset event. -/
def State.queueSize (s : State) : Nat :=
  s.queue.length

/-- Modelled from the spec: whether auto-reset budget remains (a finite
budget of zero is exhausted; an unbounded budget always remains). -/
def State.budgetRemains (s : State) : Bool :=
  s.remaining ≠ some 0

/-- The operations a client can perform on a reset event, plus the firing of
a previously armed timeout timer for the token with the given id. -/
inductive Op where
  | wait
  | set
  | reset
  | timerFire (id : Nat)
deriving DecidableEq, Repr

/-- Modelled from the spec: the execution trace kept alongside the
reset-event state — the ids whose callbacks were executed (in execution
order) and the ids that were canceled (by timeout or overflow eviction). -/
structure Sys where
  base : State
  executed : List Nat
  canceled : List Nat
deriving DecidableEq, Repr

/-- Modelled from the spec: one reset-event operation, returning the new
state together with the callback invocations issued during the call (all
with the reset event's synchronous timing).
- `wait`: if the event is signaled and auto-reset budget remains (or is
  unbounded) the fresh token's callback executes immediately, without
  touching the queue; otherwise the token is enqueued subject to the Queue
  Policy.
- `set`: forces `SIGNALED`, resets the budget to `autoResetCount` when the
  event was non-signaled, then drains the queue (`setDrain`).
- `reset`: forces `NON_SIGNALED` unconditionally.
- `timerFire i`: the timeout timer of token `i` fires; it checks queue
  membership before mutating — if the token is still queued it is removed
  and canceled, otherwise (already admitted or already evicted) the firing
  is a no-op. -/
def stepOut (s : Sys) : Op → Sys × List Invocation
  | .wait =>
    let t := createToken s.base.nextId
    if s.base.signaled && s.base.budgetRemains then
      (⟨{ s.base with nextId := s.base.nextId + 1 },
        s.executed ++ [t.id], s.canceled⟩, [executeCallback t])
    else
      let r := reduceQueue s.base.queue t s.base.opts.toOptions
      (⟨{ s.base with nextId := s.base.nextId + 1, queue := r.1 },
        s.executed, s.canceled ++ r.2.map LockToken.id⟩, [])
  | .set =>
    let budget := if s.base.signaled then s.base.remaining
                  else s.base.opts.autoResetCount
    let d := setDrain budget s.base.queue
    (⟨{ s.base with
          signaled := d.signaled,
          remaining := d.budget,
          queue := d.queue },
      s.executed ++ d.admitted.map LockToken.id, s.canceled⟩,
      d.admitted.map executeCallback)
  | .reset => (⟨{ s.base with signaled := false }, s.executed, s.canceled⟩, [])
  | .timerFire i =>
    if s.base.queue.any (fun t => t.id == i) then
      (⟨{ s.base with queue := s.base.queue.filter (fun t => t.id != i) },
        s.executed, s.canceled ++ [i]⟩, [])
    else (s, [])

/-- The state transition of one reset-event operation (invocations
discarded). -/
def step (s : Sys) (op : Op) : Sys :=
  (stepOut s op).1

/-- The initial traced system for a freshly constructed reset event. -/
def sysInit (isSignaled : Option Bool) (opts : ResetEventOptions) : Sys :=
  ⟨create isSignaled opts, [], []⟩

/-- Running a sequence of reset-event operations from a freshly constructed
event. -/
def run (isSignaled : Option Bool) (opts : ResetEventOptions)
    (ops : List Op) : Sys :=
  ops.foldl step (sysInit isSignaled opts)

end ResetEvent

namespace AsyncLock

/-- The operations a client can perform on an async lock, plus the firing of
a previously armed timeout timer.  `finish` models the currently executing
callback completing and releasing the lock by calling
`leave(currentToken)`, as in the documented usage pattern; `timerFire i`
models the timeout timer armed for the token with id `i` firing. -/
inductive Op where
  | enter
  | finish
  | timerFire (id : Nat)
deriving DecidableEq, Repr

/-- Modelled from the spec: the execution trace kept alongside the lock
state — `executed` lists, in execution order, the ids whose callbacks were
begun (admitted and invoked via the execution strategy); `ended` lists the
ids whose callbacks have completed; `canceled` lists the ids canceled by a
timeout or by overflow eviction. -/
structure Sys where
  base : State
  executed : List Nat
  ended : List Nat
  canceled : List Nat
deriving DecidableEq, Repr

/-- Modelled from the spec: one lock operation.
- `enter`: one `enter` call (see `State.enter`); invocations issued by the
  call are recorded as begun executions, evicted tokens as canceled.
- `finish`: the currently executing callback completes and calls
  `leave(currentToken)` — its id is recorded as ended, and the promoted
  queue head (if any) as a begun execution; a no-op on a free lock.
- `timerFire i`: the timeout timer of token `i` fires; it checks queue
  membership before mutating — if the token is still pending it is removed
  from the queue and canceled, otherwise (already admitted or already
  evicted) the firing is a no-op. -/
def sysStep (s : Sys) : Op → Sys
  | .enter =>
    let r := s.base.enter
    ⟨r.state,
      s.executed ++ r.invocations.map Invocation.tokenId,
      s.ended,
      s.canceled ++ r.evicted.map LockToken.id⟩
  | .finish =>
    match s.base.current with
    | none => s
    | some c =>
      let r := s.base.leave c false
      ⟨r.state,
        s.executed ++ r.invocations.map Invocation.tokenId,
        s.ended ++ [c.id],
        s.canceled⟩
  | .timerFire i =>
    if s.base.queue.any (fun t => t.id == i) then
      ⟨{ s.base with queue := s.base.queue.filter (fun t => t.id != i) },
        s.executed, s.ended, s.canceled ++ [i]⟩
    else s

/-- The initial traced system for a freshly constructed lock. -/
def sysInit (opts : Options) : Sys :=
  ⟨⟨none, [], 0, opts⟩, [], [], []⟩

/-- Running a sequence of lock operations from a freshly constructed lock. -/
def run (opts : Options) (ops : List Op) : Sys :=
  ops.foldl sysStep (sysInit opts)

/-- The ids whose callbacks are currently mid-execution: begun but not
ended. -/
def Sys.running (s : Sys) : List Nat :=
  s.executed.filter (fun i => decide (i ∉ s.ended))

end AsyncLock

/-- The conclusion of the (amended) Queue Policy claim, at pending queue
`Q`, incoming token `D`, options `opts` and finite bound `m`: eviction
triggers exactly when `|Q| ≥ m`; under `this` the incoming token is
canceled and not inserted with `Q` unchanged; under `first` the head of `Q`
is canceled and removed and `D` appended; under `last` the last element of
`Q` is canceled and removed and `D` appended in its place; when `|Q| < m`
the token is appended with no eviction; every returned evicted token is
marked canceled; and the resulting queue has at most `m` elements. -/
def ReduceQueuePolicyClaim (Q : List LockToken) (D : LockToken)
    (opts : Options) (m : Nat) : Prop :=
  ((reduceQueue Q D opts).2 = [] ↔ Q.length < m) ∧
  (m ≤ Q.length → opts.overflowStrategy = OverflowStrategy.this' →
    reduceQueue Q D opts = (Q, [D.cancel])) ∧
  (m ≤ Q.length → opts.overflowStrategy = OverflowStrategy.first →
    reduceQueue Q D opts = (Q.tail ++ [D], (Q.head?.map LockToken.cancel).toList)) ∧
  (m ≤ Q.length → opts.overflowStrategy = OverflowStrategy.last →
    reduceQueue Q D opts = (Q.dropLast ++ [D], (Q.getLast?.map LockToken.cancel).toList)) ∧
  (Q.length < m → reduceQueue Q D opts = (Q ++ [D], [])) ∧
  (∀ u ∈ (reduceQueue Q D opts).2, u.isCanceled = true) ∧
  (reduceQueue Q D opts).1.length ≤ m

/-- The non-canceled tokens of a queue (the waiters that can still be
admitted). -/
def nonCanceled (t : LockToken) : Bool :=
  !t.isCanceled

/-- The conclusion of the auto-reset drain claim at traced reset-event
system `s` and finite budget `n`: with `q` the non-canceled queued waiters,
`set()` synchronously admits exactly the first `min n |q|` of them in FIFO
order (canceled tokens are dropped without counting against the budget),
records their executions in order, leaves the remaining non-canceled
waiters queued, and if the budget ran out while waiters remained the event
is non-signaled when `set()` returns. -/
def SetDrainClaim (s : ResetEvent.Sys) (n : Nat) : Prop :=
  ((ResetEvent.stepOut s ResetEvent.Op.set).2 =
    ((s.base.queue.filter nonCanceled).take n).map ResetEvent.executeCallback) ∧
  ((ResetEvent.stepOut s ResetEvent.Op.set).2.length =
    min n (s.base.queue.filter nonCanceled).length) ∧
  (((ResetEvent.stepOut s ResetEvent.Op.set).1).base.queue.filter nonCanceled =
    (s.base.queue.filter nonCanceled).drop n) ∧
  (n < (s.base.queue.filter nonCanceled).length →
    ((ResetEvent.stepOut s ResetEvent.Op.set).1).base.isSignaled = false) ∧
  (((ResetEvent.stepOut s ResetEvent.Op.set).1).executed =
    s.executed ++ ((s.base.queue.filter nonCanceled).take n).map LockToken.id)

/-- The inductive invariant of the traced lock system: a free lock has an
empty queue; the begun executions followed by the pending ids form a
strictly increasing sequence (execution happens in arrival order, and every
pending token arrived after everything already executed); all recorded ids
are below the id counter; executed, pending and canceled ids are mutually
disjoint; ended callbacks were begun; and the callbacks currently
mid-execution are exactly the current token. -/
structure LockSysInv (s : AsyncLock.Sys) : Prop where
  free_queue : s.base.current = none → s.base.queue = []
  ordered : List.Pairwise (· < ·) (s.executed ++ s.base.queue.map LockToken.id)
  executed_lt : ∀ i ∈ s.executed, i < s.base.nextId
  queue_lt : ∀ t ∈ s.base.queue, t.id < s.base.nextId
  canceled_lt : ∀ i ∈ s.canceled, i < s.base.nextId
  executed_not_canceled : ∀ i ∈ s.executed, i ∉ s.canceled
  queue_not_canceled : ∀ t ∈ s.base.queue, t.id ∉ s.canceled
  ended_sub : ∀ i ∈ s.ended, i ∈ s.executed
  running_eq : s.running = (s.base.current.map LockToken.id).toList

/-- The inductive invariant of the traced reset-event system: pending ids
are strictly increasing (arrival order); all recorded ids are below the id
counter; executed, pending and canceled ids are mutually disjoint. -/
structure RESysInv (s : ResetEvent.Sys) : Prop where
  ordered : List.Pairwise (· < ·) (s.base.queue.map LockToken.id)
  executed_lt : ∀ i ∈ s.executed, i < s.base.nextId
  queue_lt : ∀ t ∈ s.base.queue, t.id < s.base.nextId
  canceled_lt : ∀ i ∈ s.canceled, i < s.base.nextId
  executed_not_canceled : ∀ i ∈ s.executed, i ∉ s.canceled
  queue_not_canceled : ∀ t ∈ s.base.queue, t.id ∉ s.canceled
  queue_not_executed : ∀ t ∈ s.base.queue, t.id ∉ s.executed

/-- The conclusion of the lock FIFO claim at traced lock system `s`: the
executed callbacks are in strictly increasing arrival order (strict FIFO);
no canceled token's callback ever executed; at most one callback is
mid-execution at any time; and while a callback is mid-execution
`isLocked()` is `true`. -/
def LockFifoClaim (s : AsyncLock.Sys) : Prop :=
  List.Pairwise (· < ·) s.executed ∧
  (∀ i ∈ s.executed, i ∉ s.canceled) ∧
  s.running.length ≤ 1 ∧
  (s.running ≠ [] → s.base.isLocked = true)

/-- Helper: the last element reported by `getLast?` is a member of the
list. -/
theorem reduceQueue_getLast?_mem {l : List LockToken} {a : LockToken}
    (h : l.getLast? = some a) : a ∈ l := by
  have hd := List.dropLast_append_getLast? a h
  rw [← hd]
  simp

/-- Claim C2 (counterexample): as universally stated, the Queue Policy does
not keep the resulting pending queue within `maxQueueSize`.  With pending
queue `[0, 1]` already exceeding `maxQueueSize = 1` (reachable because
options may be mutated after construction without automatic re-trimming) and
strategy `first`, admitting token `2` evicts only the head, leaving a
2-element queue, which exceeds the bound 1. -/
theorem reduceQueue_bound_counterexample :
    (Options.mk (some 1) OverflowStrategy.first).maxQueueSize = some 1 ∧
    ¬ ((reduceQueue [⟨0, false⟩, ⟨1, false⟩] ⟨2, false⟩
        (Options.mk (some 1) OverflowStrategy.first)).1.length ≤ 1) := by
  decide

/-- Claim C2 (amended): for every pending queue `Q` with `|Q| ≤ maxQueueSize`,
incoming token `D` and options with finite `maxQueueSize ≥ 1`, the Queue
Policy triggers eviction exactly when `|Q| ≥ maxQueueSize`; under `this` the
incoming token is canceled and never inserted and `Q` is unchanged; under
`first` the head of `Q` is canceled and removed and `D` appended; under
`last` the last element of `Q` is canceled and removed and `D` appended in
its place; in every case `reduceQueue` returns exactly the evicted
(canceled) tokens and the resulting pending queue never exceeds
`maxQueueSize`. -/
theorem reduceQueue_policy_spec (Q : List LockToken) (D : LockToken)
    (opts : Options) (m : Nat) (hm : opts.maxQueueSize = some m)
    (h1 : 1 ≤ m) (hQ : Q.length ≤ m) :
    ReduceQueuePolicyClaim Q D opts m := by
  unfold ReduceQueuePolicyClaim reduceQueue
  rw [hm]
  simp only []
  by_cases hc : m ≤ Q.length
  · rw [if_pos hc]
    have hQm : Q.length = m := le_antisymm hQ hc
    have hne : Q ≠ [] := by
      intro h
      rw [h] at hQm
      simp at hQm
      omega
    cases hstrat : opts.overflowStrategy with
    | this' =>
      refine ⟨?_, ?_, ?_, ?_, ?_, ?_, ?_⟩ <;> simp_all [LockToken.cancel]
    | first =>
      cases Q with
      | nil => simp at hQm; omega
      | cons q0 rest =>
        refine ⟨?_, ?_, ?_, ?_, ?_, ?_, ?_⟩ <;> simp_all [LockToken.cancel]
    | last =>
      cases hg : Q.getLast? with
      | none =>
        rw [List.getLast?_eq_none_iff] at hg
        exact absurd hg hne
      | some qn =>
        have hlen : Q.dropLast.length + 1 = Q.length := by
          rw [List.length_dropLast]
          cases Q with
          | nil => exact absurd rfl hne
          | cons a l => simp
        refine ⟨?_, ?_, ?_, ?_, ?_, ?_, ?_⟩ <;> simp_all [LockToken.cancel]
  · rw [if_neg hc]
    refine ⟨?_, ?_, ?_, ?_, ?_, ?_, ?_⟩ <;> simp_all
    omega

/-- Witness for `reduceQueue_policy_spec` at the README's example: queue
`[A, B, C]`, incoming `D`, `maxQueueSize = 3`, strategy `first`. -/
theorem reduceQueue_policy_spec_witness :
    (Options.mk (some 3) OverflowStrategy.first).maxQueueSize = some 3 ∧
    1 ≤ 3 ∧
    ([⟨0, false⟩, ⟨1, false⟩, ⟨2, false⟩] : List LockToken).length ≤ 3 ∧
    ReduceQueuePolicyClaim [⟨0, false⟩, ⟨1, false⟩, ⟨2, false⟩] ⟨3, false⟩
      (Options.mk (some 3) OverflowStrategy.first) 3 :=
  ⟨rfl, by decide, by decide,
    reduceQueue_policy_spec _ _ _ 3 rfl (by decide) (by decide)⟩

/-- Helper: with a finite budget `n`, the `set()` drain admits exactly the
first `n` non-canceled queued tokens, in FIFO order. -/
theorem setDrain_some_admitted (n : Nat) (q : List LockToken) :
    (ResetEvent.setDrain (some n) q).admitted = (q.filter nonCanceled).take n := by
  induction q generalizing n with
  | nil => cases n <;> simp [ResetEvent.setDrain]
  | cons t rest ih =>
    cases n with
    | zero => simp [ResetEvent.setDrain]
    | succ b =>
      by_cases hc : t.isCanceled <;>
        simp [ResetEvent.setDrain, hc, nonCanceled, ih]

/-- Helper: with a finite budget `n`, the non-canceled tokens still queued
after the `set()` drain are exactly the non-canceled waiters beyond the
first `n`. -/
theorem setDrain_some_queue (n : Nat) (q : List LockToken) :
    (ResetEvent.setDrain (some n) q).queue.filter nonCanceled =
      (q.filter nonCanceled).drop n := by
  induction q generalizing n with
  | nil => cases n <;> simp [ResetEvent.setDrain]
  | cons t rest ih =>
    cases n with
    | zero => simp [ResetEvent.setDrain]
    | succ b =>
      by_cases hc : t.isCanceled <;>
        simp [ResetEvent.setDrain, hc, nonCanceled, ih]

/-- Helper: with a finite budget `n`, the `set()` drain ends non-signaled
exactly when the budget was not larger than the number of non-canceled
queued waiters. -/
theorem setDrain_some_signaled (n : Nat) (q : List LockToken) :
    ((ResetEvent.setDrain (some n) q).signaled = false ↔
      n ≤ (q.filter nonCanceled).length) := by
  induction q generalizing n with
  | nil => cases n <;> simp [ResetEvent.setDrain]
  | cons t rest ih =>
    cases n with
    | zero => simp [ResetEvent.setDrain]
    | succ b =>
      by_cases hc : t.isCanceled <;>
        simp [ResetEvent.setDrain, hc, nonCanceled, ih]

/-- Claim C4: for every reset event with finite `autoResetCount = n` and
every `set()` call on it while non-signaled, with `q` non-canceled queued
waiters: `set()` admits exactly `min n |q|` waiters in FIFO order, canceled
tokens do not count against the budget, the waiters beyond the budget stay
queued, and if the budget ran out while waiters remained the event is
`NON_SIGNALED` when `set()` returns. -/
theorem set_autoResetCount_drain (s : ResetEvent.Sys) (n : Nat)
    (hn : s.base.opts.autoResetCount = some n)
    (hsig : s.base.signaled = false) :
    SetDrainClaim s n := by
  unfold SetDrainClaim ResetEvent.stepOut
  simp only [hsig, Bool.false_eq_true, if_false, hn, ResetEvent.State.isSignaled]
  refine ⟨?_, ?_, ?_, ?_, ?_⟩
  · rw [setDrain_some_admitted]
  · rw [setDrain_some_admitted]
    simp [List.length_take]
  · rw [setDrain_some_queue]
  · intro hlt
    rw [setDrain_some_signaled]
    omega
  · rw [setDrain_some_admitted]

/-- Witness for `set_autoResetCount_drain` at the claim's example:
`autoResetCount = 2` and three queued non-canceled waiters — exactly the
first two are admitted, the third stays queued, and the event ends
non-signaled. -/
theorem set_autoResetCount_drain_witness :
    (ResetEvent.Sys.mk
        (ResetEvent.State.mk false (some 2)
          [⟨0, false⟩, ⟨1, false⟩, ⟨2, false⟩] 3
          (ResetEventOptions.mk none OverflowStrategy.this' (some 2)))
        [] []).base.opts.autoResetCount = some 2 ∧
    (ResetEvent.Sys.mk
        (ResetEvent.State.mk false (some 2)
          [⟨0, false⟩, ⟨1, false⟩, ⟨2, false⟩] 3
          (ResetEventOptions.mk none OverflowStrategy.this' (some 2)))
        [] []).base.signaled = false ∧
    SetDrainClaim
      (ResetEvent.Sys.mk
        (ResetEvent.State.mk false (some 2)
          [⟨0, false⟩, ⟨1, false⟩, ⟨2, false⟩] 3
          (ResetEventOptions.mk none OverflowStrategy.this' (some 2)))
        [] []) 2 :=
  ⟨rfl, rfl, set_autoResetCount_drain _ 2 rfl rfl⟩

/-- Claim C5: for every lock state and every token `t` that is not the
current holder, `leave(t)` raises the usage error synchronously and leaves
the entire lock state unchanged — in particular `currentToken`,
`pendingQueue`, `queueSize()` and `isLocked()` are unchanged, no queued
token is canceled and no callback is invoked. -/
theorem leave_foreign_token_error (s : AsyncLock.State) (t : LockToken)
    (ab : Bool) (h : ∀ c, s.current = some c → c.id ≠ t.id) :
    s.leave t ab =
      AsyncLock.LeaveResult.mk s (some LockError.notCurrentOwner) [] [] ∧
    (s.leave t ab).state.queueSize = s.queueSize ∧
    (s.leave t ab).state.isLocked = s.isLocked := by
  cases hcur : s.current with
  | none => simp [AsyncLock.State.leave, hcur]
  | some c => simp [AsyncLock.State.leave, hcur, h c hcur]

/-- Witness for `leave_foreign_token_error`: a held lock released with a
token whose id differs from the holder's. -/
theorem leave_foreign_token_error_witness :
    (∀ c, (AsyncLock.State.mk (some ⟨5, false⟩) [⟨6, false⟩] 7
        (Options.mk none OverflowStrategy.this')).current = some c →
        c.id ≠ (9 : Nat)) ∧
    (AsyncLock.State.mk (some ⟨5, false⟩) [⟨6, false⟩] 7
        (Options.mk none OverflowStrategy.this')).leave ⟨9, false⟩ false =
      AsyncLock.LeaveResult.mk
        (AsyncLock.State.mk (some ⟨5, false⟩) [⟨6, false⟩] 7
          (Options.mk none OverflowStrategy.this'))
        (some LockError.notCurrentOwner) [] [] :=
  ⟨by decide,
    (leave_foreign_token_error _ ⟨9, false⟩ false (by decide)).1⟩

/-- Claim C6: for every lock whose current token is `t` and every pending
queue contents, `leave(t, abortPending = true)` cancels every queued token,
invokes none of their callbacks, empties the queue, and leaves the lock
free with `queueSize() = 0`. -/
theorem leave_abortPending_cancels_all (s : AsyncLock.State)
    (t c : LockToken) (hcur : s.current = some c) (hid : c.id = t.id) :
    s.leave t true =
      AsyncLock.LeaveResult.mk
        (AsyncLock.State.mk none [] s.nextId s.opts) none
        (s.queue.map LockToken.cancel) [] ∧
    (∀ u ∈ (s.leave t true).canceled, u.isCanceled = true) ∧
    (s.leave t true).invocations = [] ∧
    (s.leave t true).error = none ∧
    (s.leave t true).state.queueSize = 0 ∧
    (s.leave t true).state.isLocked = false := by
  have h1 : s.leave t true =
      AsyncLock.LeaveResult.mk
        (AsyncLock.State.mk none [] s.nextId s.opts) none
        (s.queue.map LockToken.cancel) [] := by
    simp [AsyncLock.State.leave, hcur, hid]
  refine ⟨h1, ?_, ?_, ?_, ?_, ?_⟩ <;>
    simp [h1, AsyncLock.State.queueSize, AsyncLock.State.isLocked,
      LockToken.cancel]

/-- Witness for `leave_abortPending_cancels_all`: a held lock with two
pending tokens, released with `abortPending = true`. -/
theorem leave_abortPending_cancels_all_witness :
    (AsyncLock.State.mk (some ⟨0, false⟩) [⟨1, false⟩, ⟨2, false⟩] 3
        (Options.mk none OverflowStrategy.this')).current = some ⟨0, false⟩ ∧
    (LockToken.mk 0 false).id = (LockToken.mk 0 false).id ∧
    (AsyncLock.State.mk (some ⟨0, false⟩) [⟨1, false⟩, ⟨2, false⟩] 3
        (Options.mk none OverflowStrategy.this')).leave ⟨0, false⟩ true =
      AsyncLock.LeaveResult.mk
        (AsyncLock.State.mk none [] 3 (Options.mk none OverflowStrategy.this'))
        none [⟨1, true⟩, ⟨2, true⟩] [] :=
  ⟨rfl, rfl, by
    have := (leave_abortPending_cancels_all
      (AsyncLock.State.mk (some ⟨0, false⟩) [⟨1, false⟩, ⟨2, false⟩] 3
        (Options.mk none OverflowStrategy.this'))
      ⟨0, false⟩ ⟨0, false⟩ rfl rfl).1
    simpa [LockToken.cancel] using this⟩

/-- Claim C7: for every reset event state that is signaled with auto-reset
budget remaining (or unbounded), a `wait` call executes the fresh token's
callback synchronously (the invocation is issued with immediate timing
before the call returns) and the token never enters the pending queue. -/
theorem wait_signaled_immediate (s : ResetEvent.Sys)
    (hsig : s.base.signaled = true) (hbud : s.base.remaining ≠ some 0) :
    ResetEvent.stepOut s ResetEvent.Op.wait =
      (ResetEvent.Sys.mk
        (ResetEvent.State.mk s.base.signaled s.base.remaining s.base.queue
          (s.base.nextId + 1) s.base.opts)
        (s.executed ++ [s.base.nextId]) s.canceled,
        [Invocation.mk Timing.immediate s.base.nextId]) ∧
    ((ResetEvent.stepOut s ResetEvent.Op.wait).1).base.queue = s.base.queue := by
  have hb : s.base.budgetRemains = true := by
    simp [ResetEvent.State.budgetRemains, hbud]
  constructor
  · simp [ResetEvent.stepOut, hsig, hb, createToken, ResetEvent.executeCallback]
  · simp [ResetEvent.stepOut, hsig, hb]

/-- Witness for `wait_signaled_immediate`: a signaled event with unbounded
budget; `wait` issues one immediate invocation and the queue stays empty. -/
theorem wait_signaled_immediate_witness :
    (ResetEvent.sysInit (some true) ResetEvent.defaultOptions).base.signaled
      = true ∧
    (ResetEvent.sysInit (some true)
        ResetEvent.defaultOptions).base.remaining ≠ some 0 ∧
    ((ResetEvent.stepOut (ResetEvent.sysInit (some true)
        ResetEvent.defaultOptions) ResetEvent.Op.wait).1).base.queue =
      (ResetEvent.sysInit (some true) ResetEvent.defaultOptions).base.queue :=
  ⟨rfl, by decide,
    (wait_signaled_immediate _ rfl (by decide)).2⟩

/-- Claim C8: the lock's default `executeCallback` never invokes an admitted
token's callback synchronously within the caller's stack — every invocation
it issues (from `enter` or from `leave`) is deferred to the next turn of the
event loop, so `enter` on a free lock returns before the callback runs —
whereas the reset event's default `executeCallback` invokes callbacks
synchronously: every invocation issued by a reset-event operation has
immediate timing; and the two defaults differ. -/
theorem execution_strategy_defaults :
    (∀ s : AsyncLock.State,
      ∀ inv ∈ (s.enter).invocations, inv.timing = Timing.nextTick) ∧
    (∀ (s : AsyncLock.State) (t : LockToken) (ab : Bool),
      ∀ inv ∈ (s.leave t ab).invocations, inv.timing = Timing.nextTick) ∧
    (∀ s : AsyncLock.State, s.current = none →
      (s.enter).invocations =
        [AsyncLock.executeCallback (createToken s.nextId)]) ∧
    (∀ (s : ResetEvent.Sys) (op : ResetEvent.Op),
      ∀ inv ∈ (ResetEvent.stepOut s op).2, inv.timing = Timing.immediate) ∧
    Timing.nextTick ≠ Timing.immediate := by
  refine ⟨?_, ?_, ?_, ?_, by decide⟩
  · intro s inv hinv
    cases hcur : s.current with
    | none =>
      simp [AsyncLock.State.enter, hcur] at hinv
      simp [hinv, AsyncLock.executeCallback]
    | some c => simp [AsyncLock.State.enter, hcur] at hinv
  · intro s t ab inv hinv
    cases hcur : s.current with
    | none => simp [AsyncLock.State.leave, hcur] at hinv
    | some c =>
      by_cases hid : c.id = t.id
      · cases hab : ab
        · cases hq : s.queue with
          | nil => simp [AsyncLock.State.leave, hcur, hid, hq, hab] at hinv
          | cons h rest =>
            simp [AsyncLock.State.leave, hcur, hid, hq, hab] at hinv
            simp [hinv, AsyncLock.executeCallback]
        · simp [AsyncLock.State.leave, hcur, hid, hab] at hinv
      · simp [AsyncLock.State.leave, hcur, hid] at hinv
  · intro s hcur
    simp [AsyncLock.State.enter, hcur]
  · intro s op inv hinv
    cases op with
    | wait =>
      by_cases hg : s.base.signaled && s.base.budgetRemains
      · simp [ResetEvent.stepOut, hg] at hinv
        simp [hinv, ResetEvent.executeCallback]
      · simp [ResetEvent.stepOut, hg] at hinv
    | set =>
      simp [ResetEvent.stepOut] at hinv
      obtain ⟨u, _, hu⟩ := hinv
      simp [← hu, ResetEvent.executeCallback]
    | reset => simp [ResetEvent.stepOut] at hinv
    | timerFire i =>
      by_cases hg : s.base.queue.any (fun u => u.id == i) <;>
        simp [ResetEvent.stepOut, hg] at hinv

/-- Witness for `execution_strategy_defaults`: on a fresh free lock, `enter`
issues exactly one deferred (next-tick) invocation, and on a fresh signaled
reset event, `wait` issues an immediate invocation. -/
theorem execution_strategy_defaults_witness :
    (Invocation.mk Timing.nextTick 0 ∈
      ((AsyncLock.State.mk none [] 0
        (Options.mk none OverflowStrategy.this')).enter).invocations) ∧
    (Invocation.mk Timing.nextTick 0).timing = Timing.nextTick ∧
    (Invocation.mk Timing.immediate 0 ∈
      (ResetEvent.stepOut (ResetEvent.sysInit (some true)
        ResetEvent.defaultOptions) ResetEvent.Op.wait).2) ∧
    (Invocation.mk Timing.immediate 0).timing = Timing.immediate :=
  ⟨by decide,
    execution_strategy_defaults.1
      (AsyncLock.State.mk none [] 0 (Options.mk none OverflowStrategy.this'))
      (Invocation.mk Timing.nextTick 0) (by decide),
    by decide,
    (execution_strategy_defaults.2.2.2.1)
      (ResetEvent.sysInit (some true) ResetEvent.defaultOptions)
      ResetEvent.Op.wait (Invocation.mk Timing.immediate 0) (by decide)⟩

/-- Claim C9: `reset()` succeeds unconditionally and forces the event
non-signaled even when it is already non-signaled; and of the core
operations only `leave` can fail, exactly when the token is not the current
holder — `enter`, `wait`, `set`, `reset`, admission and queue draining are
total operations of the model with no error outcome, and `leave` with the
holder reports no error. -/
theorem core_error_surface :
    (∀ s : ResetEvent.Sys,
      ((ResetEvent.step s ResetEvent.Op.reset).base).isSignaled = false) ∧
    (∀ (s : AsyncLock.State) (t : LockToken) (ab : Bool),
      ((s.leave t ab).error = none ↔
        ∃ c, s.current = some c ∧ c.id = t.id)) := by
  constructor
  · intro s
    simp [ResetEvent.step, ResetEvent.stepOut, ResetEvent.State.isSignaled]
  · intro s t ab
    cases hcur : s.current with
    | none => simp [AsyncLock.State.leave, hcur]
    | some c =>
      by_cases hid : c.id = t.id
      · cases hab : ab
        · cases hq : s.queue <;> simp [AsyncLock.State.leave, hcur, hid, hq]
        · simp [AsyncLock.State.leave, hcur, hid]
      · simp [AsyncLock.State.leave, hcur, hid]

/-- Claim C10: the reset event's constructor takes an optional initial
signaled state: constructed with `true` the event starts signaled and the
first `wait` call executes its callback immediately (one immediate
invocation, nothing queued) without `set()` ever having been called; with
the argument omitted the event starts non-signaled. -/
theorem constructor_initial_signaled :
    (ResetEvent.create (some true) ResetEvent.defaultOptions).isSignaled
      = true ∧
    (ResetEvent.stepOut (ResetEvent.sysInit (some true)
        ResetEvent.defaultOptions) ResetEvent.Op.wait).2 =
      [Invocation.mk Timing.immediate 0] ∧
    ((ResetEvent.stepOut (ResetEvent.sysInit (some true)
        ResetEvent.defaultOptions) ResetEvent.Op.wait).1).base.queue = [] ∧
    (ResetEvent.create none ResetEvent.defaultOptions).isSignaled = false := by
  refine ⟨rfl, by decide, by decide, rfl⟩

/-- Helper: canceling a token does not change its id. -/
theorem LockToken.cancel_id (t : LockToken) : t.cancel.id = t.id :=
  rfl

/-- Helper: a strictly increasing list stays strictly increasing when an
element larger than all of its elements is appended. -/
theorem pairwise_lt_append_singleton {l : List Nat} {n : Nat}
    (h : List.Pairwise (· < ·) l) (hn : ∀ x ∈ l, x < n) :
    List.Pairwise (· < ·) (l ++ [n]) := by
  rw [List.pairwise_append]
  exact ⟨h, List.pairwise_singleton _ _, by simpa using hn⟩

/-- Helper: the two halves of a strictly increasing concatenation are
disjoint. -/
theorem pairwise_lt_append_disjoint {l1 l2 : List Nat}
    (h : List.Pairwise (· < ·) (l1 ++ l2)) : ∀ a ∈ l1, a ∉ l2 := by
  intro a h1 h2
  exact absurd ((List.pairwise_append.mp h).2.2 a h1 a h2) (lt_irrefl a)

/-- Helper: the four possible outcomes of the Queue Policy — append with no
eviction, reject the incoming token, evict the head, or evict the last
element. -/
theorem reduceQueue_cases (Q : List LockToken) (D : LockToken)
    (opts : Options) :
    reduceQueue Q D opts = (Q ++ [D], []) ∨
    reduceQueue Q D opts = (Q, [D.cancel]) ∨
    (∃ q0 rest, Q = q0 :: rest ∧
      reduceQueue Q D opts = (rest ++ [D], [q0.cancel])) ∨
    (∃ init qn, Q = init ++ [qn] ∧
      reduceQueue Q D opts = (init ++ [D], [qn.cancel])) := by
  unfold reduceQueue
  cases hm : opts.maxQueueSize with
  | none => exact Or.inl rfl
  | some m =>
    simp only []
    by_cases hc : m ≤ Q.length
    · rw [if_pos hc]
      cases hstrat : opts.overflowStrategy with
      | this' => exact Or.inr (Or.inl rfl)
      | first =>
        cases Q with
        | nil => simp
        | cons q0 rest => exact Or.inr (Or.inr (Or.inl ⟨q0, rest, rfl, rfl⟩))
      | last =>
        cases hg : Q.getLast? with
        | none =>
          rw [List.getLast?_eq_none_iff] at hg
          subst hg
          simp
        | some qn =>
          refine Or.inr (Or.inr (Or.inr ⟨Q.dropLast, qn, ?_, rfl⟩))
          exact (List.dropLast_append_getLast? qn hg).symm
    · rw [if_neg hc]
      exact Or.inl rfl

/-- Helper: the queue produced by the Queue Policy is a sublist of the old
queue with the incoming token appended. -/
theorem reduceQueue_queue_sublist (Q : List LockToken) (D : LockToken)
    (opts : Options) : (reduceQueue Q D opts).1.Sublist (Q ++ [D]) := by
  rcases reduceQueue_cases Q D opts with h | h | ⟨q0, rest, hQ, h⟩ |
    ⟨init, qn, hQ, h⟩
  · rw [h]
  · rw [h]
    exact List.sublist_append_left Q [D]
  · rw [h, hQ]
    exact List.Sublist.cons q0 (List.Sublist.refl (rest ++ [D]))
  · rw [h, hQ, List.append_assoc]
    exact List.Sublist.append_left
      (List.Sublist.cons qn (List.Sublist.refl [D])) init

/-- Helper: every token evicted by the Queue Policy carries the id of the
incoming token or of a token of the old queue, and is marked canceled. -/
theorem reduceQueue_evicted_ids (Q : List LockToken) (D : LockToken)
    (opts : Options) :
    ∀ v ∈ (reduceQueue Q D opts).2,
      v.isCanceled = true ∧ (v.id = D.id ∨ v.id ∈ Q.map LockToken.id) := by
  rcases reduceQueue_cases Q D opts with h | h | ⟨q0, rest, hQ, h⟩ |
    ⟨init, qn, hQ, h⟩
  · rw [h]
    intro v hv
    simp at hv
  · rw [h]
    intro v hv
    simp at hv
    subst hv
    simp [LockToken.cancel]
  · subst hQ
    rw [h]
    intro v hv
    simp at hv
    subst hv
    simp [LockToken.cancel]
  · subst hQ
    rw [h]
    intro v hv
    simp at hv
    subst hv
    simp [LockToken.cancel]

/-- Helper: when the old queue together with the incoming token has no
duplicate ids, the queue and the evicted tokens produced by the Queue
Policy have disjoint ids. -/
theorem reduceQueue_result_evicted_disjoint (Q : List LockToken)
    (D : LockToken) (opts : Options)
    (h : ((Q ++ [D]).map LockToken.id).Nodup) :
    ∀ u ∈ (reduceQueue Q D opts).1, ∀ v ∈ (reduceQueue Q D opts).2,
      u.id ≠ v.id := by
  rcases reduceQueue_cases Q D opts with hr | hr | ⟨q0, rest, hQ, hr⟩ |
    ⟨init, qn, hQ, hr⟩
  · rw [hr]
    intro u hu v hv
    simp at hv
  · rw [hr]
    intro u hu v hv
    simp at hv
    subst hv
    rw [LockToken.cancel_id]
    rw [List.map_append, List.nodup_append] at h
    intro he
    exact h.2.2 (List.mem_map_of_mem LockToken.id hu) (by simp [he])
  · subst hQ
    rw [hr]
    intro u hu v hv
    simp at hv
    subst hv
    rw [LockToken.cancel_id]
    have h' : (q0.id :: (rest.map LockToken.id ++ [D.id])).Nodup := by
      simpa using h
    have hq0 : q0.id ∉ rest.map LockToken.id ++ [D.id] :=
      (List.nodup_cons.mp h').1
    intro he
    apply hq0
    rcases List.mem_append.mp hu with hu | hu
    · exact List.mem_append.mpr
        (Or.inl (he ▸ List.mem_map_of_mem LockToken.id hu))
    · simp at hu
      subst hu
      exact List.mem_append.mpr (Or.inr (by simp [he]))
  · subst hQ
    rw [hr]
    intro u hu v hv
    simp at hv
    subst hv
    rw [LockToken.cancel_id]
    have h' : ((init.map LockToken.id ++ [qn.id]) ++ [D.id]).Nodup := by
      simpa using h
    intro he
    rcases List.mem_append.mp hu with hu | hu
    · rcases List.nodup_append.mp (List.nodup_append.mp h').1 with ⟨_, _, hd⟩
      exact hd (he ▸ List.mem_map_of_mem LockToken.id hu) (by simp)
    · simp at hu
      subst hu
      rcases List.nodup_append.mp h' with ⟨_, _, hd⟩
      exact hd (a := qn.id) (by simp) (by simp [he])

/-- Helper: if the callbacks mid-execution are exactly `[cid]`, then after
recording `cid` as ended no callback is mid-execution. -/
theorem running_close {executed ended : List Nat} {cid : Nat}
    (h : List.filter (fun i => decide (i ∉ ended)) executed = [cid]) :
    List.filter (fun i => decide (i ∉ ended ++ [cid])) executed = [] := by
  rw [List.filter_eq_nil_iff]
  intro a ha
  simp only [decide_eq_true_eq, Decidable.not_not, List.mem_append,
    List.mem_singleton]
  by_cases hae : a ∈ ended
  · exact Or.inl hae
  · refine Or.inr ?_
    have hm : a ∈ List.filter (fun i => decide (i ∉ ended)) executed :=
      List.mem_filter.mpr ⟨ha, by simp [hae]⟩
    rw [h] at hm
    simpa using hm

/-- Helper: on a held lock, the holder's callback has begun and has not
ended. -/
theorem running_some {s : AsyncLock.Sys} {c : LockToken} (inv : LockSysInv s)
    (hcur : s.base.current = some c) :
    c.id ∈ s.executed ∧ c.id ∉ s.ended := by
  have h := inv.running_eq
  rw [hcur] at h
  have hm : c.id ∈ s.running := by
    rw [h]
    simp
  unfold AsyncLock.Sys.running at hm
  have h2 := List.mem_filter.mp hm
  exact ⟨h2.1, by simpa using h2.2⟩

/-- Helper: the lock invariant is preserved by `enter`. -/
theorem lockSysInv_enter (s : AsyncLock.Sys) (inv : LockSysInv s) :
    LockSysInv (AsyncLock.sysStep s AsyncLock.Op.enter) := by
  cases hcur : s.base.current with
  | none =>
    have hq : s.base.queue = [] := inv.free_queue hcur
    have hstep : AsyncLock.sysStep s AsyncLock.Op.enter =
        ⟨⟨some (createToken s.base.nextId), s.base.queue,
            s.base.nextId + 1, s.base.opts⟩,
          s.executed ++ [s.base.nextId], s.ended, s.canceled⟩ := by
      simp [AsyncLock.sysStep, AsyncLock.State.enter, hcur,
        AsyncLock.executeCallback, createToken]
    rw [hstep]
    have hexe : List.Pairwise (· < ·) s.executed := by
      have h := inv.ordered
      rw [hq] at h
      simpa using h
    have hnotexe : s.base.nextId ∉ s.executed := by
      intro hmem
      exact absurd (inv.executed_lt _ hmem) (lt_irrefl _)
    refine ⟨?_, ?_, ?_, ?_, ?_, ?_, ?_, ?_, ?_⟩
    · intro h
      simp at h
    · simp only [hq, List.map_nil, List.append_nil]
      exact pairwise_lt_append_singleton hexe inv.executed_lt
    · intro i hi
      rcases List.mem_append.mp hi with hi | hi
      · exact Nat.lt_succ_of_lt (inv.executed_lt i hi)
      · simp at hi
        subst hi
        exact Nat.lt_succ_self _
    · simp [hq]
    · intro i hi
      exact Nat.lt_succ_of_lt (inv.canceled_lt i hi)
    · intro i hi
      rcases List.mem_append.mp hi with hi | hi
      · exact inv.executed_not_canceled i hi
      · simp at hi
        subst hi
        intro hmem
        exact absurd (inv.canceled_lt _ hmem) (lt_irrefl _)
    · simp [hq]
    · intro i hi
      exact List.mem_append.mpr (Or.inl (inv.ended_sub i hi))
    · have h := inv.running_eq
      rw [hcur] at h
      unfold AsyncLock.Sys.running at h
      have hrun : List.filter (fun i => decide (i ∉ s.ended)) s.executed
          = [] := h
      have hnotend : s.base.nextId ∉ s.ended := fun hmem =>
        hnotexe (inv.ended_sub _ hmem)
      show List.filter (fun i => decide (i ∉ s.ended))
          (s.executed ++ [s.base.nextId]) = [(createToken s.base.nextId).id]
      rw [List.filter_append, hrun]
      simp [hnotend, createToken]
  | some c =>
    have hstep : AsyncLock.sysStep s AsyncLock.Op.enter =
        ⟨⟨some c,
            (reduceQueue s.base.queue (createToken s.base.nextId)
              s.base.opts).1,
            s.base.nextId + 1, s.base.opts⟩,
          s.executed, s.ended,
          s.canceled ++
            (reduceQueue s.base.queue (createToken s.base.nextId)
              s.base.opts).2.map LockToken.id⟩ := by
      simp [AsyncLock.sysStep, AsyncLock.State.enter, hcur]
    rw [hstep]
    have hbig : List.Pairwise (· < ·)
        (s.executed ++ (s.base.queue.map LockToken.id ++ [s.base.nextId])) := by
      rw [← List.append_assoc]
      refine pairwise_lt_append_singleton inv.ordered ?_
      intro x hx
      rcases List.mem_append.mp hx with hx | hx
      · exact inv.executed_lt x hx
      · rcases List.mem_map.mp hx with ⟨t, ht, rfl⟩
        exact inv.queue_lt t ht
    have hsub : (reduceQueue s.base.queue (createToken s.base.nextId)
        s.base.opts).1.Sublist
        (s.base.queue ++ [createToken s.base.nextId]) :=
      reduceQueue_queue_sublist _ _ _
    have hmemq : ∀ u ∈ (reduceQueue s.base.queue (createToken s.base.nextId)
        s.base.opts).1, u ∈ s.base.queue ∨ u = createToken s.base.nextId := by
      intro u hu
      rcases List.mem_append.mp (hsub.subset hu) with hu | hu
      · exact Or.inl hu
      · simp at hu
        exact Or.inr hu
    have hnodup : ((s.base.queue ++ [createToken s.base.nextId]).map
        LockToken.id).Nodup := by
      have h2 : List.Pairwise (· < ·)
          (s.base.queue.map LockToken.id ++ [s.base.nextId]) :=
        (List.pairwise_append.mp hbig).2.1
      have h3 : (s.base.queue.map LockToken.id ++ [s.base.nextId]).Nodup :=
        h2.nodup
      simpa [createToken] using h3
    have hev := reduceQueue_evicted_ids s.base.queue
      (createToken s.base.nextId) s.base.opts
    have hexq : ∀ a ∈ s.executed, a ∉ s.base.queue.map LockToken.id :=
      pairwise_lt_append_disjoint inv.ordered
    refine ⟨?_, ?_, ?_, ?_, ?_, ?_, ?_, ?_, ?_⟩
    · intro h
      simp at h
    · refine List.Pairwise.sublist ?_ hbig
      refine List.Sublist.append_left ?_ s.executed
      have := hsub.map LockToken.id
      simpa [createToken] using this
    · intro i hi
      exact Nat.lt_succ_of_lt (inv.executed_lt i hi)
    · intro t ht
      rcases hmemq t ht with ht | ht
      · exact Nat.lt_succ_of_lt (inv.queue_lt t ht)
      · subst ht
        exact Nat.lt_succ_self _
    · intro i hi
      rcases List.mem_append.mp hi with hi | hi
      · exact Nat.lt_succ_of_lt (inv.canceled_lt i hi)
      · rcases List.mem_map.mp hi with ⟨v, hv, rfl⟩
        rcases (hev v hv).2 with h | h
        · rw [h]
          simp [createToken]
        · rcases List.mem_map.mp h with ⟨t, ht, hid⟩
          rw [← hid]
          exact Nat.lt_succ_of_lt (inv.queue_lt t ht)
    · intro i hi hmem
      rcases List.mem_append.mp hmem with hmem | hmem
      · exact inv.executed_not_canceled i hi hmem
      · rcases List.mem_map.mp hmem with ⟨v, hv, hid⟩
        rcases (hev v hv).2 with h | h
        · have hieq : i = s.base.nextId := by
            rw [← hid, h]
            rfl
          subst hieq
          exact absurd (inv.executed_lt _ hi) (lt_irrefl _)
        · rw [hid] at h
          exact hexq i hi h
    · intro t ht hmem
      rcases List.mem_append.mp hmem with hmem | hmem
      · rcases hmemq t ht with h | h
        · exact inv.queue_not_canceled t h hmem
        · subst h
          simp [createToken] at hmem
          exact absurd (inv.canceled_lt _ hmem) (lt_irrefl _)
      · rcases List.mem_map.mp hmem with ⟨v, hv, hid⟩
        exact reduceQueue_result_evicted_disjoint _ _ _ hnodup t ht v hv hid.symm
    · exact inv.ended_sub
    · have h := inv.running_eq
      rw [hcur] at h
      simpa [AsyncLock.Sys.running, hcur] using h

/-- Helper: the lock invariant is preserved by the completion of the
current callback (which releases the lock and promotes the queue head). -/
theorem lockSysInv_finish (s : AsyncLock.Sys) (inv : LockSysInv s) :
    LockSysInv (AsyncLock.sysStep s AsyncLock.Op.finish) := by
  cases hcur : s.base.current with
  | none =>
    have hstep : AsyncLock.sysStep s AsyncLock.Op.finish = s := by
      simp [AsyncLock.sysStep, hcur]
    rw [hstep]
    exact inv
  | some c =>
    have hrc := running_some inv hcur
    have hrunning : List.filter (fun i => decide (i ∉ s.ended)) s.executed
        = [c.id] := by
      have h := inv.running_eq
      rw [hcur] at h
      exact h
    cases hq : s.base.queue with
    | nil =>
      have hstep : AsyncLock.sysStep s AsyncLock.Op.finish =
          ⟨⟨none, s.base.queue, s.base.nextId, s.base.opts⟩,
            s.executed, s.ended ++ [c.id], s.canceled⟩ := by
        simp [AsyncLock.sysStep, AsyncLock.State.leave, hcur, hq]
      rw [hstep]
      refine ⟨?_, ?_, ?_, ?_, ?_, ?_, ?_, ?_, ?_⟩
      · intro _
        exact hq
      · exact inv.ordered
      · exact inv.executed_lt
      · exact inv.queue_lt
      · exact inv.canceled_lt
      · exact inv.executed_not_canceled
      · exact inv.queue_not_canceled
      · intro j hj
        rcases List.mem_append.mp hj with hj | hj
        · exact inv.ended_sub j hj
        · simp at hj
          subst hj
          exact hrc.1
      · show List.filter (fun i => decide (i ∉ s.ended ++ [c.id]))
            s.executed = []
        exact running_close hrunning
    | cons h rest =>
      have hstep : AsyncLock.sysStep s AsyncLock.Op.finish =
          ⟨⟨some h, rest, s.base.nextId, s.base.opts⟩,
            s.executed ++ [h.id], s.ended ++ [c.id], s.canceled⟩ := by
        simp [AsyncLock.sysStep, AsyncLock.State.leave, hcur, hq,
          AsyncLock.executeCallback]
      rw [hstep]
      have hqh : h ∈ s.base.queue := by
        rw [hq]
        exact List.mem_cons_self h rest
      have hordered : List.Pairwise (· < ·)
          (s.executed ++ (h.id :: rest.map LockToken.id)) := by
        have ho := inv.ordered
        rw [hq] at ho
        simpa using ho
      have hnotex_h : h.id ∉ s.executed := fun hmem =>
        pairwise_lt_append_disjoint inv.ordered h.id hmem
          (List.mem_map_of_mem LockToken.id hqh)
      have hh_nend : h.id ∉ s.ended := fun hmem =>
        hnotex_h (inv.ended_sub _ hmem)
      have hhid_ne_cid : h.id ≠ c.id := fun he =>
        hnotex_h (he ▸ hrc.1)
      refine ⟨?_, ?_, ?_, ?_, ?_, ?_, ?_, ?_, ?_⟩
      · intro hcon
        simp at hcon
      · rw [List.append_assoc]
        simpa using hordered
      · intro j hj
        rcases List.mem_append.mp hj with hj | hj
        · exact inv.executed_lt j hj
        · simp at hj
          subst hj
          exact inv.queue_lt h hqh
      · intro t ht
        refine inv.queue_lt t ?_
        rw [hq]
        exact List.mem_cons_of_mem h ht
      · exact inv.canceled_lt
      · intro j hj
        rcases List.mem_append.mp hj with hj | hj
        · exact inv.executed_not_canceled j hj
        · simp at hj
          subst hj
          exact inv.queue_not_canceled h hqh
      · intro t ht
        refine inv.queue_not_canceled t ?_
        rw [hq]
        exact List.mem_cons_of_mem h ht
      · intro j hj
        rcases List.mem_append.mp hj with hj | hj
        · exact List.mem_append.mpr (Or.inl (inv.ended_sub j hj))
        · simp at hj
          subst hj
          exact List.mem_append.mpr (Or.inl hrc.1)
      · show List.filter (fun i => decide (i ∉ s.ended ++ [c.id]))
            (s.executed ++ [h.id]) = [h.id]
        rw [List.filter_append, running_close hrunning]
        have hh : h.id ∉ s.ended ++ [c.id] := by
          intro hmem
          rcases List.mem_append.mp hmem with hmem | hmem
          · exact hh_nend hmem
          · simp at hmem
            exact hhid_ne_cid hmem
        simp [hh]
        exact ⟨hh_nend, hhid_ne_cid⟩

/-- Helper: the lock invariant is preserved by a timer firing. -/
theorem lockSysInv_timer (s : AsyncLock.Sys) (i : Nat) (inv : LockSysInv s) :
    LockSysInv (AsyncLock.sysStep s (AsyncLock.Op.timerFire i)) := by
  by_cases hcond : s.base.queue.any (fun t => t.id == i)
  · have hstep : AsyncLock.sysStep s (AsyncLock.Op.timerFire i) =
        ⟨⟨s.base.current, s.base.queue.filter (fun t => t.id != i),
            s.base.nextId, s.base.opts⟩,
          s.executed, s.ended, s.canceled ++ [i]⟩ := by
      simp only [AsyncLock.sysStep, hcond, if_true]
    rw [hstep]
    obtain ⟨t0, ht0, hbeq⟩ := List.any_eq_true.mp hcond
    have ht0i : t0.id = i := by simpa using hbeq
    have hinotex : i ∉ s.executed := fun hmem =>
      pairwise_lt_append_disjoint inv.ordered i hmem
        (ht0i ▸ List.mem_map_of_mem LockToken.id ht0)
    refine ⟨?_, ?_, ?_, ?_, ?_, ?_, ?_, ?_, ?_⟩
    · intro hcn
      rw [inv.free_queue hcn]
      rfl
    · refine List.Pairwise.sublist ?_ inv.ordered
      exact List.Sublist.append_left
        ((List.filter_sublist s.base.queue).map LockToken.id) s.executed
    · exact inv.executed_lt
    · intro t ht
      exact inv.queue_lt t (List.mem_filter.mp ht).1
    · intro j hj
      rcases List.mem_append.mp hj with hj | hj
      · exact inv.canceled_lt j hj
      · simp at hj
        subst hj
        exact ht0i ▸ inv.queue_lt t0 ht0
    · intro j hj hmem
      rcases List.mem_append.mp hmem with hmem | hmem
      · exact inv.executed_not_canceled j hj hmem
      · simp at hmem
        subst hmem
        exact hinotex hj
    · intro t ht hmem
      have ht' := List.mem_filter.mp ht
      rcases List.mem_append.mp hmem with hmem | hmem
      · exact inv.queue_not_canceled t ht'.1 hmem
      · simp at hmem
        have : (t.id != i) = true := ht'.2
        rw [hmem] at this
        simp at this
    · exact inv.ended_sub
    · exact inv.running_eq
  · have hstep : AsyncLock.sysStep s (AsyncLock.Op.timerFire i) = s := by
      simp [AsyncLock.sysStep, hcond]
    rw [hstep]
    exact inv

/-- Helper: the lock invariant is preserved by every operation. -/
theorem lockSysInv_step (s : AsyncLock.Sys) (op : AsyncLock.Op)
    (inv : LockSysInv s) : LockSysInv (AsyncLock.sysStep s op) := by
  cases op with
  | enter => exact lockSysInv_enter s inv
  | finish => exact lockSysInv_finish s inv
  | timerFire i => exact lockSysInv_timer s i inv

/-- Helper: the lock invariant holds initially. -/
theorem lockSysInv_init (opts : Options) :
    LockSysInv (AsyncLock.sysInit opts) := by
  refine ⟨?_, ?_, ?_, ?_, ?_, ?_, ?_, ?_, ?_⟩ <;>
    simp [AsyncLock.sysInit, AsyncLock.Sys.running]

/-- Helper: the lock invariant holds after any run continued from an
invariant state. -/
theorem lockSysInv_foldl (ops : List AsyncLock.Op) (s : AsyncLock.Sys)
    (inv : LockSysInv s) :
    LockSysInv (ops.foldl AsyncLock.sysStep s) := by
  induction ops generalizing s with
  | nil => exact inv
  | cons op rest ih => exact ih _ (lockSysInv_step s op inv)

/-- Helper: the lock invariant holds in every reachable state. -/
theorem lockSysInv_run (opts : Options) (ops : List AsyncLock.Op) :
    LockSysInv (AsyncLock.run opts ops) :=
  lockSysInv_foldl ops _ (lockSysInv_init opts)

/-- Claim C1: on a lock with unbounded queue, after every sequence of
operations the callbacks of non-canceled tokens have executed in exactly
their arrival (FIFO) order — the execution trace is strictly increasing in
arrival ids and disjoint from the canceled ids — at most one callback is
mid-execution at any time, and `isLocked()` is `true` whenever a callback
is mid-execution.  Quantifying over all operation sequences makes the
conclusion hold at every intermediate point of every run. -/
theorem lock_fifo_execution (opts : Options) (ops : List AsyncLock.Op)
    (_hunbounded : opts.maxQueueSize = none) :
    LockFifoClaim (AsyncLock.run opts ops) := by
  have inv := lockSysInv_run opts ops
  refine ⟨(List.pairwise_append.mp inv.ordered).1,
    inv.executed_not_canceled, ?_, ?_⟩
  · rw [inv.running_eq]
    cases (AsyncLock.run opts ops).base.current <;> simp
  · intro hne
    rw [inv.running_eq] at hne
    cases hc : (AsyncLock.run opts ops).base.current with
    | none =>
      rw [hc] at hne
      simp at hne
    | some c =>
      simp [AsyncLock.State.isLocked, hc]

/-- Witness for `lock_fifo_execution`: two `enter` calls followed by the two
callbacks completing, on an unbounded lock. -/
theorem lock_fifo_execution_witness :
    (Options.mk none OverflowStrategy.this').maxQueueSize = none ∧
    LockFifoClaim (AsyncLock.run (Options.mk none OverflowStrategy.this')
      [AsyncLock.Op.enter, AsyncLock.Op.enter, AsyncLock.Op.finish,
        AsyncLock.Op.finish]) :=
  ⟨rfl, lock_fifo_execution _ _ rfl⟩

/-- Helper: the `set()` drain splits the queue — the tokens left queued are
a suffix of the old queue, and the admitted tokens are drawn (in order) from
the consumed part. -/
theorem setDrain_split (b : Option Nat) (q : List LockToken) :
    ∃ pre, q = pre ++ (ResetEvent.setDrain b q).queue ∧
      (ResetEvent.setDrain b q).admitted.Sublist pre := by
  induction q generalizing b with
  | nil =>
    refine ⟨[], ?_, ?_⟩ <;>
      (cases b with
        | none => simp [ResetEvent.setDrain]
        | some m => cases m <;> simp [ResetEvent.setDrain])
  | cons t rest ih =>
    cases b with
    | none =>
      obtain ⟨pre, hpre, hadm⟩ := ih none
      by_cases hc : t.isCanceled
      · have hqueue : (ResetEvent.setDrain none (t :: rest)).queue =
            (ResetEvent.setDrain none rest).queue := by
          simp [ResetEvent.setDrain, hc]
        have hadmNew : (ResetEvent.setDrain none (t :: rest)).admitted =
            (ResetEvent.setDrain none rest).admitted := by
          simp [ResetEvent.setDrain, hc]
        refine ⟨t :: pre, ?_, ?_⟩
        · rw [hqueue, List.cons_append, ← hpre]
        · rw [hadmNew]
          exact hadm.cons t
      · have hqueue : (ResetEvent.setDrain none (t :: rest)).queue =
            (ResetEvent.setDrain none rest).queue := by
          simp [ResetEvent.setDrain, hc]
        have hadmNew : (ResetEvent.setDrain none (t :: rest)).admitted =
            t :: (ResetEvent.setDrain none rest).admitted := by
          simp [ResetEvent.setDrain, hc]
        refine ⟨t :: pre, ?_, ?_⟩
        · rw [hqueue, List.cons_append, ← hpre]
        · rw [hadmNew]
          exact hadm.cons₂ t
    | some m =>
      cases m with
      | zero => exact ⟨[], rfl, by simp [ResetEvent.setDrain]⟩
      | succ k =>
        by_cases hc : t.isCanceled
        · obtain ⟨pre, hpre, hadm⟩ := ih (some (k + 1))
          have hqueue : (ResetEvent.setDrain (some (k + 1)) (t :: rest)).queue
              = (ResetEvent.setDrain (some (k + 1)) rest).queue := by
            simp [ResetEvent.setDrain, hc]
          have hadmNew :
              (ResetEvent.setDrain (some (k + 1)) (t :: rest)).admitted =
              (ResetEvent.setDrain (some (k + 1)) rest).admitted := by
            simp [ResetEvent.setDrain, hc]
          refine ⟨t :: pre, ?_, ?_⟩
          · rw [hqueue, List.cons_append, ← hpre]
          · rw [hadmNew]
            exact hadm.cons t
        · obtain ⟨pre, hpre, hadm⟩ := ih (some k)
          have hqueue : (ResetEvent.setDrain (some (k + 1)) (t :: rest)).queue
              = (ResetEvent.setDrain (some k) rest).queue := by
            simp [ResetEvent.setDrain, hc]
          have hadmNew :
              (ResetEvent.setDrain (some (k + 1)) (t :: rest)).admitted =
              t :: (ResetEvent.setDrain (some k) rest).admitted := by
            simp [ResetEvent.setDrain, hc]
          refine ⟨t :: pre, ?_, ?_⟩
          · rw [hqueue, List.cons_append, ← hpre]
          · rw [hadmNew]
            exact hadm.cons₂ t

/-- Helper: the reset-event invariant is preserved by every operation. -/
theorem reSysInv_step (s : ResetEvent.Sys) (op : ResetEvent.Op)
    (inv : RESysInv s) : RESysInv (ResetEvent.step s op) := by
  cases op with
  | wait =>
    by_cases hg : s.base.signaled && s.base.budgetRemains
    · have hstep : ResetEvent.step s ResetEvent.Op.wait =
          ⟨⟨s.base.signaled, s.base.remaining, s.base.queue,
              s.base.nextId + 1, s.base.opts⟩,
            s.executed ++ [s.base.nextId], s.canceled⟩ := by
        simp [ResetEvent.step, ResetEvent.stepOut, hg, createToken]
      rw [hstep]
      refine ⟨inv.ordered, ?_, ?_, ?_, ?_, inv.queue_not_canceled, ?_⟩
      · intro i hi
        rcases List.mem_append.mp hi with hi | hi
        · exact Nat.lt_succ_of_lt (inv.executed_lt i hi)
        · simp at hi
          subst hi
          exact Nat.lt_succ_self _
      · intro t ht
        exact Nat.lt_succ_of_lt (inv.queue_lt t ht)
      · intro i hi
        exact Nat.lt_succ_of_lt (inv.canceled_lt i hi)
      · intro i hi
        rcases List.mem_append.mp hi with hi | hi
        · exact inv.executed_not_canceled i hi
        · simp at hi
          subst hi
          intro hmem
          exact absurd (inv.canceled_lt _ hmem) (lt_irrefl _)
      · intro t ht hmem
        rcases List.mem_append.mp hmem with hmem | hmem
        · exact inv.queue_not_executed t ht hmem
        · simp at hmem
          exact absurd (hmem ▸ inv.queue_lt t ht) (lt_irrefl _)
    · have hstep : ResetEvent.step s ResetEvent.Op.wait =
          ⟨⟨s.base.signaled, s.base.remaining,
              (reduceQueue s.base.queue (createToken s.base.nextId)
                s.base.opts.toOptions).1,
              s.base.nextId + 1, s.base.opts⟩,
            s.executed,
            s.canceled ++
              (reduceQueue s.base.queue (createToken s.base.nextId)
                s.base.opts.toOptions).2.map LockToken.id⟩ := by
        simp [ResetEvent.step, ResetEvent.stepOut, hg]
      rw [hstep]
      have hqpair : List.Pairwise (· < ·)
          (s.base.queue.map LockToken.id ++ [s.base.nextId]) := by
        refine pairwise_lt_append_singleton inv.ordered ?_
        intro x hx
        rcases List.mem_map.mp hx with ⟨t, ht, rfl⟩
        exact inv.queue_lt t ht
      have hnodup : ((s.base.queue ++ [createToken s.base.nextId]).map
          LockToken.id).Nodup := by
        have h3 := hqpair.nodup
        simpa [createToken] using h3
      have hsub := reduceQueue_queue_sublist s.base.queue
        (createToken s.base.nextId) s.base.opts.toOptions
      have hmemq : ∀ u ∈ (reduceQueue s.base.queue
          (createToken s.base.nextId) s.base.opts.toOptions).1,
          u ∈ s.base.queue ∨ u = createToken s.base.nextId := by
        intro u hu
        rcases List.mem_append.mp (hsub.subset hu) with hu | hu
        · exact Or.inl hu
        · simp at hu
          exact Or.inr hu
      have hev := reduceQueue_evicted_ids s.base.queue
        (createToken s.base.nextId) s.base.opts.toOptions
      refine ⟨?_, ?_, ?_, ?_, ?_, ?_, ?_⟩
      · refine List.Pairwise.sublist ?_ hqpair
        have := hsub.map LockToken.id
        simpa [createToken] using this
      · intro i hi
        exact Nat.lt_succ_of_lt (inv.executed_lt i hi)
      · intro t ht
        rcases hmemq t ht with ht | ht
        · exact Nat.lt_succ_of_lt (inv.queue_lt t ht)
        · subst ht
          exact Nat.lt_succ_self _
      · intro i hi
        rcases List.mem_append.mp hi with hi | hi
        · exact Nat.lt_succ_of_lt (inv.canceled_lt i hi)
        · rcases List.mem_map.mp hi with ⟨v, hv, rfl⟩
          rcases (hev v hv).2 with h | h
          · rw [h]
            simp [createToken]
          · rcases List.mem_map.mp h with ⟨t, ht, hid⟩
            rw [← hid]
            exact Nat.lt_succ_of_lt (inv.queue_lt t ht)
      · intro i hi hmem
        rcases List.mem_append.mp hmem with hmem | hmem
        · exact inv.executed_not_canceled i hi hmem
        · rcases List.mem_map.mp hmem with ⟨v, hv, hid⟩
          rcases (hev v hv).2 with h | h
          · have hieq : i = s.base.nextId := by
              rw [← hid, h]
              rfl
            subst hieq
            exact absurd (inv.executed_lt _ hi) (lt_irrefl _)
          · rw [hid] at h
            rcases List.mem_map.mp h with ⟨t, ht, hid2⟩
            exact inv.queue_not_executed t ht (hid2 ▸ hi)
      · intro t ht hmem
        rcases List.mem_append.mp hmem with hmem | hmem
        · rcases hmemq t ht with h | h
          · exact inv.queue_not_canceled t h hmem
          · subst h
            simp [createToken] at hmem
            exact absurd (inv.canceled_lt _ hmem) (lt_irrefl _)
        · rcases List.mem_map.mp hmem with ⟨v, hv, hid⟩
          exact reduceQueue_result_evicted_disjoint _ _ _ hnodup t ht v hv
            hid.symm
      · intro t ht hmem
        rcases hmemq t ht with h | h
        · exact inv.queue_not_executed t h hmem
        · subst h
          simp [createToken] at hmem
          exact absurd (inv.executed_lt _ hmem) (lt_irrefl _)
  | set =>
    have hstep : ∃ b, ResetEvent.step s ResetEvent.Op.set =
        ⟨⟨(ResetEvent.setDrain b s.base.queue).signaled,
            (ResetEvent.setDrain b s.base.queue).budget,
            (ResetEvent.setDrain b s.base.queue).queue,
            s.base.nextId, s.base.opts⟩,
          s.executed ++
            (ResetEvent.setDrain b s.base.queue).admitted.map LockToken.id,
          s.canceled⟩ := by
      refine ⟨if s.base.signaled then s.base.remaining
        else s.base.opts.autoResetCount, ?_⟩
      simp [ResetEvent.step, ResetEvent.stepOut]
    obtain ⟨b, hstep⟩ := hstep
    rw [hstep]
    obtain ⟨pre, hpre, hadm⟩ := setDrain_split b s.base.queue
    have hqsub : (ResetEvent.setDrain b s.base.queue).queue.Sublist
        s.base.queue := by
      have h0 : (ResetEvent.setDrain b s.base.queue).queue.Sublist
          (pre ++ (ResetEvent.setDrain b s.base.queue).queue) :=
        List.sublist_append_right pre _
      rw [← hpre] at h0
      exact h0
    have hasub : (ResetEvent.setDrain b s.base.queue).admitted.Sublist
        s.base.queue := by
      refine hadm.trans ?_
      have h0 : pre.Sublist
          (pre ++ (ResetEvent.setDrain b s.base.queue).queue) :=
        List.sublist_append_left pre _
      rw [← hpre] at h0
      exact h0
    have hdisj : ∀ a ∈ pre.map LockToken.id,
        a ∉ (ResetEvent.setDrain b s.base.queue).queue.map LockToken.id := by
      have hnd : (s.base.queue.map LockToken.id).Nodup := inv.ordered.nodup
      rw [hpre, List.map_append, List.nodup_append] at hnd
      exact fun a ha hb => hnd.2.2 ha hb
    refine ⟨?_, ?_, ?_, inv.canceled_lt, ?_, ?_, ?_⟩
    · exact List.Pairwise.sublist (hqsub.map LockToken.id) inv.ordered
    · intro i hi
      rcases List.mem_append.mp hi with hi | hi
      · exact inv.executed_lt i hi
      · rcases List.mem_map.mp hi with ⟨t, ht, rfl⟩
        exact inv.queue_lt t (hasub.subset ht)
    · intro t ht
      exact inv.queue_lt t (hqsub.subset ht)
    · intro i hi
      rcases List.mem_append.mp hi with hi | hi
      · exact inv.executed_not_canceled i hi
      · rcases List.mem_map.mp hi with ⟨t, ht, rfl⟩
        exact inv.queue_not_canceled t (hasub.subset ht)
    · intro t ht
      exact inv.queue_not_canceled t (hqsub.subset ht)
    · intro t ht hmem
      rcases List.mem_append.mp hmem with hmem | hmem
      · exact inv.queue_not_executed t (hqsub.subset ht) hmem
      · rcases List.mem_map.mp hmem with ⟨u, hu, hid⟩
        refine hdisj u.id ?_ ?_
        · exact List.mem_map_of_mem LockToken.id (hadm.subset hu)
        · rw [hid]
          exact List.mem_map_of_mem LockToken.id ht
  | reset =>
    have hstep : ResetEvent.step s ResetEvent.Op.reset =
        ⟨⟨false, s.base.remaining, s.base.queue, s.base.nextId, s.base.opts⟩,
          s.executed, s.canceled⟩ := by
      simp [ResetEvent.step, ResetEvent.stepOut]
    rw [hstep]
    exact ⟨inv.ordered, inv.executed_lt, inv.queue_lt, inv.canceled_lt,
      inv.executed_not_canceled, inv.queue_not_canceled,
      inv.queue_not_executed⟩
  | timerFire i =>
    by_cases hcond : s.base.queue.any (fun t => t.id == i)
    · have hstep : ResetEvent.step s (ResetEvent.Op.timerFire i) =
          ⟨⟨s.base.signaled, s.base.remaining,
              s.base.queue.filter (fun t => t.id != i),
              s.base.nextId, s.base.opts⟩,
            s.executed, s.canceled ++ [i]⟩ := by
        simp only [ResetEvent.step, ResetEvent.stepOut, hcond, if_true]
      rw [hstep]
      obtain ⟨t0, ht0, hbeq⟩ := List.any_eq_true.mp hcond
      have ht0i : t0.id = i := by simpa using hbeq
      refine ⟨?_, inv.executed_lt, ?_, ?_, ?_, ?_, ?_⟩
      · refine List.Pairwise.sublist ?_ inv.ordered
        exact (List.filter_sublist s.base.queue).map LockToken.id
      · intro t ht
        exact inv.queue_lt t (List.mem_filter.mp ht).1
      · intro j hj
        rcases List.mem_append.mp hj with hj | hj
        · exact inv.canceled_lt j hj
        · simp at hj
          subst hj
          exact ht0i ▸ inv.queue_lt t0 ht0
      · intro j hj hmem
        rcases List.mem_append.mp hmem with hmem | hmem
        · exact inv.executed_not_canceled j hj hmem
        · simp at hmem
          subst hmem
          exact inv.queue_not_executed t0 ht0 (ht0i ▸ hj)
      · intro t ht hmem
        have ht' := List.mem_filter.mp ht
        rcases List.mem_append.mp hmem with hmem | hmem
        · exact inv.queue_not_canceled t ht'.1 hmem
        · simp at hmem
          have hne : (t.id != i) = true := ht'.2
          rw [hmem] at hne
          simp at hne
      · intro t ht
        exact inv.queue_not_executed t (List.mem_filter.mp ht).1
    · have hstep : ResetEvent.step s (ResetEvent.Op.timerFire i) = s := by
        simp [ResetEvent.step, ResetEvent.stepOut, hcond]
      rw [hstep]
      exact inv

/-- Helper: the reset-event invariant holds initially. -/
theorem reSysInv_init (sig : Option Bool) (opts : ResetEventOptions) :
    RESysInv (ResetEvent.sysInit sig opts) := by
  refine ⟨?_, ?_, ?_, ?_, ?_, ?_, ?_⟩ <;>
    simp [ResetEvent.sysInit, ResetEvent.create]

/-- Helper: the reset-event invariant holds in every reachable state. -/
theorem reSysInv_run (sig : Option Bool) (opts : ResetEventOptions)
    (ops : List ResetEvent.Op) : RESysInv (ResetEvent.run sig opts ops) := by
  have h : ∀ (l : List ResetEvent.Op) (s : ResetEvent.Sys), RESysInv s →
      RESysInv (l.foldl ResetEvent.step s) := by
    intro l
    induction l with
    | nil => exact fun s inv => inv
    | cons op rest ih => exact fun s inv => ih _ (reSysInv_step s op inv)
  exact h ops _ (reSysInv_init sig opts)

/-- Helper: lock operations never remove entries from the execution trace
or the canceled set. -/
theorem lockStep_traces_mono (s : AsyncLock.Sys) (op : AsyncLock.Op) :
    (∀ i ∈ s.executed, i ∈ (AsyncLock.sysStep s op).executed) ∧
    (∀ i ∈ s.canceled, i ∈ (AsyncLock.sysStep s op).canceled) := by
  cases op with
  | enter =>
    cases hcur : s.base.current <;>
      constructor <;> intro i hi <;>
      simp [AsyncLock.sysStep, AsyncLock.State.enter, hcur, hi]
  | finish =>
    cases hcur : s.base.current with
    | none =>
      constructor <;> intro i hi <;> simp [AsyncLock.sysStep, hcur, hi]
    | some c =>
      cases hq : s.base.queue <;> constructor <;> intro i hi <;>
        simp [AsyncLock.sysStep, AsyncLock.State.leave, hcur, hq, hi]
  | timerFire j =>
    by_cases hcond : s.base.queue.any (fun t => t.id == j) <;>
      constructor <;> intro i hi <;>
      simp [AsyncLock.sysStep, hcond, hi]

/-- Helper: trace monotonicity extended over a whole continuation run of
the lock. -/
theorem lockRun_traces_mono (s : AsyncLock.Sys) (extra : List AsyncLock.Op) :
    (∀ i ∈ s.executed, i ∈ (extra.foldl AsyncLock.sysStep s).executed) ∧
    (∀ i ∈ s.canceled, i ∈ (extra.foldl AsyncLock.sysStep s).canceled) := by
  induction extra generalizing s with
  | nil => exact ⟨fun i hi => hi, fun i hi => hi⟩
  | cons op rest ih =>
    refine ⟨?_, ?_⟩ <;> intro i hi
    · exact (ih (AsyncLock.sysStep s op)).1 i
        ((lockStep_traces_mono s op).1 i hi)
    · exact (ih (AsyncLock.sysStep s op)).2 i
        ((lockStep_traces_mono s op).2 i hi)

/-- Helper: reset-event operations never remove entries from the execution
trace or the canceled set. -/
theorem reStep_traces_mono (s : ResetEvent.Sys) (op : ResetEvent.Op) :
    (∀ i ∈ s.executed, i ∈ (ResetEvent.step s op).executed) ∧
    (∀ i ∈ s.canceled, i ∈ (ResetEvent.step s op).canceled) := by
  cases op with
  | wait =>
    by_cases hg : s.base.signaled && s.base.budgetRemains <;>
      constructor <;> intro i hi <;>
      simp [ResetEvent.step, ResetEvent.stepOut, hg, hi]
  | set =>
    constructor <;> intro i hi <;>
      simp [ResetEvent.step, ResetEvent.stepOut, hi]
  | reset =>
    constructor <;> intro i hi <;>
      simp [ResetEvent.step, ResetEvent.stepOut, hi]
  | timerFire j =>
    by_cases hcond : s.base.queue.any (fun t => t.id == j) <;>
      constructor <;> intro i hi <;>
      simp [ResetEvent.step, ResetEvent.stepOut, hcond, hi]

/-- Helper: trace monotonicity extended over a whole continuation run of
the reset event. -/
theorem reRun_traces_mono (s : ResetEvent.Sys) (extra : List ResetEvent.Op) :
    (∀ i ∈ s.executed, i ∈ (extra.foldl ResetEvent.step s).executed) ∧
    (∀ i ∈ s.canceled, i ∈ (extra.foldl ResetEvent.step s).canceled) := by
  induction extra generalizing s with
  | nil => exact ⟨fun i hi => hi, fun i hi => hi⟩
  | cons op rest ih =>
    refine ⟨?_, ?_⟩ <;> intro i hi
    · exact (ih (ResetEvent.step s op)).1 i
        ((reStep_traces_mono s op).1 i hi)
    · exact (ih (ResetEvent.step s op)).2 i
        ((reStep_traces_mono s op).2 i hi)

/-- Claim C3: for every token of either primitive, timeout-cancellation and
admission are mutually exclusive and permanent outcomes.  On the lock: a
token canceled by a timer firing stays canceled and its callback never
executes, no matter what operations (including `leave`) happen afterward;
and a token whose callback executed stays executed and can never be
canceled by a later timer firing.  The same holds on the reset event with
`set`/`reset` operations happening afterward. -/
theorem timeout_admission_exclusive (lopts : Options)
    (lops lextra : List AsyncLock.Op) (i : Nat)
    (sig : Option Bool) (ropts : ResetEventOptions)
    (rops rextra : List ResetEvent.Op) (j : Nat) :
    (i ∈ (AsyncLock.run lopts lops).canceled →
      i ∈ (AsyncLock.run lopts (lops ++ lextra)).canceled ∧
      i ∉ (AsyncLock.run lopts (lops ++ lextra)).executed) ∧
    (i ∈ (AsyncLock.run lopts lops).executed →
      i ∈ (AsyncLock.run lopts (lops ++ lextra)).executed ∧
      i ∉ (AsyncLock.run lopts (lops ++ lextra)).canceled) ∧
    (j ∈ (ResetEvent.run sig ropts rops).canceled →
      j ∈ (ResetEvent.run sig ropts (rops ++ rextra)).canceled ∧
      j ∉ (ResetEvent.run sig ropts (rops ++ rextra)).executed) ∧
    (j ∈ (ResetEvent.run sig ropts rops).executed →
      j ∈ (ResetEvent.run sig ropts (rops ++ rextra)).executed ∧
      j ∉ (ResetEvent.run sig ropts (rops ++ rextra)).canceled) := by
  have hlfold : AsyncLock.run lopts (lops ++ lextra) =
      lextra.foldl AsyncLock.sysStep (AsyncLock.run lopts lops) := by
    unfold AsyncLock.run
    exact List.foldl_append _ _ lops lextra
  have hrfold : ResetEvent.run sig ropts (rops ++ rextra) =
      rextra.foldl ResetEvent.step (ResetEvent.run sig ropts rops) := by
    unfold ResetEvent.run
    exact List.foldl_append _ _ rops rextra
  have hlinv := lockSysInv_run lopts (lops ++ lextra)
  have hrinv := reSysInv_run sig ropts (rops ++ rextra)
  refine ⟨?_, ?_, ?_, ?_⟩
  · intro hc
    have hc2 : i ∈ (AsyncLock.run lopts (lops ++ lextra)).canceled := by
      rw [hlfold]
      exact (lockRun_traces_mono _ lextra).2 i hc
    exact ⟨hc2, fun he => hlinv.executed_not_canceled i he hc2⟩
  · intro he
    have he2 : i ∈ (AsyncLock.run lopts (lops ++ lextra)).executed := by
      rw [hlfold]
      exact (lockRun_traces_mono _ lextra).1 i he
    exact ⟨he2, hlinv.executed_not_canceled i he2⟩
  · intro hc
    have hc2 : j ∈ (ResetEvent.run sig ropts (rops ++ rextra)).canceled := by
      rw [hrfold]
      exact (reRun_traces_mono _ rextra).2 j hc
    exact ⟨hc2, fun he => hrinv.executed_not_canceled j he hc2⟩
  · intro he
    have he2 : j ∈ (ResetEvent.run sig ropts (rops ++ rextra)).executed := by
      rw [hrfold]
      exact (reRun_traces_mono _ rextra).1 j he
    exact ⟨he2, hrinv.executed_not_canceled j he2⟩

/-- Witness for `timeout_admission_exclusive`: on the lock, token 1 is
queued behind token 0 and its timer fires before it is admitted — it stays
canceled and never executes even after both `leave`s; on the reset event,
token 0 waits on a non-signaled event and its timer fires — it stays
canceled and never executes even after a later `set()`. -/
theorem timeout_admission_exclusive_witness :
    (1 ∈ (AsyncLock.run (Options.mk none OverflowStrategy.this')
      [AsyncLock.Op.enter, AsyncLock.Op.enter,
        AsyncLock.Op.timerFire 1]).canceled) ∧
    (1 ∈ (AsyncLock.run (Options.mk none OverflowStrategy.this')
      ([AsyncLock.Op.enter, AsyncLock.Op.enter, AsyncLock.Op.timerFire 1] ++
        [AsyncLock.Op.finish, AsyncLock.Op.finish])).canceled ∧
      1 ∉ (AsyncLock.run (Options.mk none OverflowStrategy.this')
      ([AsyncLock.Op.enter, AsyncLock.Op.enter, AsyncLock.Op.timerFire 1] ++
        [AsyncLock.Op.finish, AsyncLock.Op.finish])).executed) ∧
    (0 ∈ (ResetEvent.run none ResetEvent.defaultOptions
      [ResetEvent.Op.wait, ResetEvent.Op.timerFire 0]).canceled) ∧
    (0 ∈ (ResetEvent.run none ResetEvent.defaultOptions
      ([ResetEvent.Op.wait, ResetEvent.Op.timerFire 0] ++
        [ResetEvent.Op.set])).canceled ∧
      0 ∉ (ResetEvent.run none ResetEvent.defaultOptions
      ([ResetEvent.Op.wait, ResetEvent.Op.timerFire 0] ++
        [ResetEvent.Op.set])).executed) :=
  ⟨by decide,
    (timeout_admission_exclusive (Options.mk none OverflowStrategy.this')
      [AsyncLock.Op.enter, AsyncLock.Op.enter, AsyncLock.Op.timerFire 1]
      [AsyncLock.Op.finish, AsyncLock.Op.finish] 1
      none ResetEvent.defaultOptions
      [ResetEvent.Op.wait, ResetEvent.Op.timerFire 0]
      [ResetEvent.Op.set] 0).1 (by decide),
    by decide,
    (timeout_admission_exclusive (Options.mk none OverflowStrategy.this')
      [AsyncLock.Op.enter, AsyncLock.Op.enter, AsyncLock.Op.timerFire 1]
      [AsyncLock.Op.finish, AsyncLock.Op.finish] 1
      none ResetEvent.defaultOptions
      [ResetEvent.Op.wait, ResetEvent.Op.timerFire 0]
      [ResetEvent.Op.set] 0).2.2.1 (by decide)⟩

end AsyncLocks
